import Mathlib

/-!
Verification of the accumulator tree-store layer
(`core/accumulator/src/tree_store/mod.rs`): the two global LRU caches
(`AccumulatorCache` over `GLOBAL_NODE_CACHE` and `GLOBAL_NODE_INDEX_CACHE`)
and the in-memory reference store `MockAccumulatorStore`.

The Rust globals are embedded by explicit state passing: every operation
takes the cache (or store) state it reads and returns the updated state.
Logging (`warn!`) is embedded as an explicit list of logged values in the
operation's result.
-/

set_option autoImplicit false

/-- Content hash values (`starcoin_crypto::HashValue`). Modelled from the spec:
the crypto crate is outside the given sources; a hash value is an opaque
comparable value, modelled as a natural number. -/
abbrev HashValue := Nat

/-- Embedding of `HashValue::zero()`, the all-zero hash used as the placeholder
return value of `AccumulatorCache::get_node_hash` on a cache miss. -/
def HashValue.zero : HashValue := 0

/-- Positional node index. Modelled from the spec: `node_index.rs` is outside
the given sources; §3 describes `NodeIndex` as an opaque, totally ordered,
copyable positional ordinal, modelled as a natural number. -/
abbrev NodeIndex := Nat

/-- Accumulator node. Modelled from the spec (§3): the node type itself lives
outside the given sources; it is one of `Empty`, `Leaf { index, leaf_hash }`,
`Internal { index, left_hash, right_hash }`. -/
inductive AccumulatorNode where
  | empty : AccumulatorNode
  | leaf (index : NodeIndex) (leaf_hash : HashValue) : AccumulatorNode
  | internal (index : NodeIndex) (left_hash right_hash : HashValue) : AccumulatorNode
deriving DecidableEq, Repr

/-- Content hash of a node. Modelled from the spec (§4.2): a deterministic,
injective-across-variants (domain-separated) pure function of the variant and
fields. An injective pairing-based encoding realises exactly that contract. -/
def AccumulatorNode.hash : AccumulatorNode → HashValue
  | .empty => 0
  | .leaf i lh => 3 * Nat.pair i lh + 1
  | .internal i l r => 3 * Nat.pair i (Nat.pair l r) + 2

/-- Embedding of `AccumulatorNode::new_empty()`: the placeholder `Empty` node
returned by `AccumulatorCache::get_node` on a cache miss. -/
def AccumulatorNode.new_empty : AccumulatorNode := .empty

/-- Positional index of a node. Modelled from the spec (§4.2): defined for
`Leaf`/`Internal`; the spec leaves it undefined for `Empty`, so the embedding
totalises it with index 0 (no claim depends on the `Empty` case). -/
def AccumulatorNode.index : AccumulatorNode → NodeIndex
  | .empty => 0
  | .leaf i _ => i
  | .internal i _ _ => i

/-- Node index cache key (`NodeCacheKey`): accumulator identity plus position.
Its derived equality accounts for both fields, exactly as the Rust
`#[derive(Eq, PartialEq, Hash)]` does. -/
structure NodeCacheKey where
  id : HashValue
  index : NodeIndex
deriving DecidableEq, Repr

/-- Embedding of `NodeCacheKey::new`. -/
def NodeCacheKey.new (accumulator_id : HashValue) (index : NodeIndex) : NodeCacheKey :=
  ⟨accumulator_id, index⟩

/-- First value stored under key `k` in an association list (the lookup map of
a hash map or LRU list). -/
def lookupKey {K V : Type} [DecidableEq K] (k : K) : List (K × V) → Option V
  | [] => none
  | p :: rest => if p.1 = k then some p.2 else lookupKey k rest

/-- Remove every entry keyed `k` from an association list. -/
def eraseKeyAll {K V : Type} [DecidableEq K] (k : K) : List (K × V) → List (K × V)
  | [] => []
  | p :: rest => if p.1 = k then eraseKeyAll k rest else p :: eraseKeyAll k rest

/-- Model of the `lru` crate's `LruCache` as used by `GLOBAL_NODE_CACHE` and
`GLOBAL_NODE_INDEX_CACHE`: a capacity-bounded map whose entries are kept in
most-recently-used-first order; inserting a fresh key when the cache is full
evicts the least recently used entry (the last of the list). -/
structure LruCache (K V : Type) where
  entries : List (K × V)
  cap : Nat
deriving DecidableEq, Repr

/-- Fresh LRU cache of a given capacity (`LruCache::new(MAC_CACHE_SIZE)`;
`MAC_CACHE_SIZE` itself is declared outside the given sources, so the capacity
is kept as a parameter). -/
def LruCache.empty (K V : Type) (cap : Nat) : LruCache K V := ⟨[], cap⟩

/-- Model of `LruCache::get`: on a hit, returns the value and moves the entry
to the most-recently-used position; on a miss, returns `none` and leaves the
cache unchanged. -/
def LruCache.get {K V : Type} [DecidableEq K] (c : LruCache K V) (k : K) :
    Option V × LruCache K V :=
  match lookupKey k c.entries with
  | some v => (some v, ⟨(k, v) :: eraseKeyAll k c.entries, c.cap⟩)
  | none => (none, c)

/-- Model of `LruCache::put`: inserts `(k, v)` as most recently used, returning
the previous value under `k` when one existed; when the key is fresh and the
insertion overflows the capacity, the least recently used entry is dropped. -/
def LruCache.put {K V : Type} [DecidableEq K] (c : LruCache K V) (k : K) (v : V) :
    Option V × LruCache K V :=
  match lookupKey k c.entries with
  | some old => (some old, ⟨(k, v) :: eraseKeyAll k c.entries, c.cap⟩)
  | none =>
    let es := (k, v) :: c.entries
    (none, ⟨if c.cap < es.length then es.dropLast else es, c.cap⟩)

/-- Result type of the Rust functions returning `anyhow::Result`. -/
abbrev RustResult (α : Type) := Except String α

/-- State of the global content-addressed node cache (`GLOBAL_NODE_CACHE`). -/
abbrev NodeCache := LruCache HashValue AccumulatorNode

/-- State of the global positional index cache (`GLOBAL_NODE_INDEX_CACHE`). -/
abbrev NodeIndexCache := LruCache NodeCacheKey HashValue

namespace AccumulatorCache

/-- Embedding of `AccumulatorCache::get_node`: a cache hit returns the node
(first component) and the recency-updated cache (second component); a miss
logs a warning and returns the placeholder `Empty` node. -/
def get_node (c : NodeCache) (hash : HashValue) : AccumulatorNode × NodeCache :=
  let res := c.get hash
  (match res.1 with
   | some node => node
   | none => AccumulatorNode.new_empty,
   res.2)

/-- Embedding of `AccumulatorCache::get_nodes`: walks the requested hashes in
order and pushes the node of every cache hit, skipping misses. -/
def get_nodes (c : NodeCache) : List HashValue → List AccumulatorNode × NodeCache
  | [] => ([], c)
  | h :: rest =>
    let res := c.get h
    let tail := get_nodes res.2 rest
    (match res.1 with
     | some node => node :: tail.1
     | none => tail.1,
     tail.2)

/-- Embedding of `AccumulatorCache::get_node_hash`: a hit returns the cached
hash; a miss logs an error and returns the zero hash. -/
def get_node_hash (c : NodeIndexCache) (accumulator_id : HashValue) (index : NodeIndex) :
    HashValue × NodeIndexCache :=
  let res := c.get (NodeCacheKey.new accumulator_id index)
  (match res.1 with
   | some node_hash => node_hash
   | none => HashValue.zero,
   res.2)

/-- Embedding of `AccumulatorCache::_save_node`: puts the node under its
content hash; when the key already existed the old node is logged (second
component) and `Ok(())` is returned regardless. -/
def _save_node (c : NodeCache) (node : AccumulatorNode) :
    RustResult Unit × List AccumulatorNode × NodeCache :=
  let res := c.put node.hash node
  (.ok (),
   (match res.1 with
    | some old => [old]
    | none => []),
   res.2)

/-- Embedding of `AccumulatorCache::save_node_index`: puts the hash under the
composite key; an existing key is logged (the old hash, second component) and
`Ok(())` is returned regardless. -/
def save_node_index (c : NodeIndexCache) (accumulator_id : HashValue) (index : NodeIndex)
    (node_hash : HashValue) : RustResult Unit × List HashValue × NodeIndexCache :=
  let res := c.put (NodeCacheKey.new accumulator_id index) node_hash
  (.ok (),
   (match res.1 with
    | some hash => [hash]
    | none => []),
   res.2)

/-- Embedding of `AccumulatorCache::save_nodes`: puts every node in order under
its content hash, logging each overwritten old node, and returns `Ok(())`. -/
def save_nodes (c : NodeCache) : List AccumulatorNode →
    RustResult Unit × List AccumulatorNode × NodeCache
  | [] => (.ok (), [], c)
  | node :: rest =>
    let res := c.put node.hash node
    let tail := save_nodes res.2 rest
    (.ok (),
     (match res.1 with
      | some old => [old]
      | none => []) ++ tail.2.1,
     tail.2.2)

/-- Embedding of `AccumulatorCache::save_node_indexes`: puts every node's hash
under `NodeCacheKey::new(accumulator_id, node.index())` in order, logging each
overwritten old hash, and returns `Ok(())`. -/
def save_node_indexes (c : NodeIndexCache) (accumulator_id : HashValue) :
    List AccumulatorNode → RustResult Unit × List HashValue × NodeIndexCache
  | [] => (.ok (), [], c)
  | node :: rest =>
    let res := c.put (NodeCacheKey.new accumulator_id node.index) node.hash
    let tail := save_node_indexes res.2 accumulator_id rest
    (.ok (),
     (match res.1 with
      | some old => [old]
      | none => []) ++ tail.2.1,
     tail.2.2)

end AccumulatorCache

/-- The in-memory reference store `MockAccumulatorStore`: a hash map from
content hash to node, embedded as a canonical association list (an insert
removes any previous entry for the key before consing the new one, matching
`HashMap::insert`'s overwrite semantics). -/
structure MockAccumulatorStore where
  node_store : List (HashValue × AccumulatorNode)
deriving DecidableEq, Repr

/-- Embedding of `MockAccumulatorStore::new`. -/
def MockAccumulatorStore.new : MockAccumulatorStore := ⟨[]⟩

/-- Canonical `HashMap::insert`: overwrite the entry for the key. -/
def storeInsert (k : HashValue) (v : AccumulatorNode)
    (l : List (HashValue × AccumulatorNode)) : List (HashValue × AccumulatorNode) :=
  (k, v) :: eraseKeyAll k l

/-- Outcome of a Rust call that may `panic!` (used for the `unimplemented!`
body of `MockAccumulatorStore::multiple_get`). -/
inductive RustOutcome (α : Type) where
  | ok (a : α) : RustOutcome α
  | error (msg : String) : RustOutcome α
  | unimplemented : RustOutcome α
deriving DecidableEq, Repr

/-- Embedding of `MockAccumulatorStore::get_node` (the `AccumulatorReader`
impl): `Ok(Some(node))` when the hash is stored, otherwise
`bail!("get node is null: {}", hash)`. -/
def MockAccumulatorStore.get_node (s : MockAccumulatorStore) (hash : HashValue) :
    RustResult (Option AccumulatorNode) :=
  match lookupKey hash s.node_store with
  | some node => .ok (some node)
  | none => .error ("get node is null: " ++ toString hash)

/-- Embedding of `MockAccumulatorStore::multiple_get`: the body is
`unimplemented!()`, which panics unconditionally. -/
def MockAccumulatorStore.multiple_get (_s : MockAccumulatorStore)
    (_hash_vec : List HashValue) : RustOutcome (List AccumulatorNode) :=
  .unimplemented

/-- Embedding of `MockAccumulatorStore::save_node`: inserts the node keyed by
its content hash and returns `Ok(())`. -/
def MockAccumulatorStore.save_node (s : MockAccumulatorStore) (node : AccumulatorNode) :
    RustResult Unit × MockAccumulatorStore :=
  (.ok (), ⟨storeInsert node.hash node s.node_store⟩)

/-- Embedding of `MockAccumulatorStore::save_nodes`: inserts every node in
order keyed by its content hash and returns `Ok(())`. -/
def MockAccumulatorStore.save_nodes (s : MockAccumulatorStore) :
    List AccumulatorNode → RustResult Unit × MockAccumulatorStore
  | [] => (.ok (), s)
  | node :: rest => save_nodes ⟨storeInsert node.hash node s.node_store⟩ rest

/-- Embedding of `MockAccumulatorStore::delete_nodes`: removes the entry of
every listed hash in order and returns `Ok(())`. -/
def MockAccumulatorStore.delete_nodes (s : MockAccumulatorStore) :
    List HashValue → RustResult Unit × MockAccumulatorStore
  | [] => (.ok (), s)
  | hash :: rest => delete_nodes ⟨eraseKeyAll hash s.node_store⟩ rest

/-! ### Helper lemmas about association-list lookup and the LRU model -/

theorem lookupKey_eraseKeyAll_ne {K V : Type} [DecidableEq K] (k k' : K)
    (l : List (K × V)) (h : k' ≠ k) :
    lookupKey k' (eraseKeyAll k l) = lookupKey k' l := by
  induction l with
  | nil => rfl
  | cons p rest ih =>
    have h' : ¬ (k = k') := fun hc => h hc.symm
    by_cases hp : p.1 = k
    · have hp' : ¬ (p.1 = k') := fun hc => h (by rw [← hc, hp])
      simp [eraseKeyAll, lookupKey, hp, hp', ih, h, h']
    · by_cases hq : p.1 = k'
      · simp [eraseKeyAll, lookupKey, hp, hq, h, h']
      · simp [eraseKeyAll, lookupKey, hp, hq, ih, h, h']

theorem lookupKey_eq_none_iff {K V : Type} [DecidableEq K] (k : K) (l : List (K × V)) :
    lookupKey k l = none ↔ k ∉ l.map Prod.fst := by
  induction l with
  | nil => simp [lookupKey]
  | cons p rest ih =>
    by_cases hp : p.1 = k
    · simp [lookupKey, hp]
    · simp only [lookupKey, if_neg hp, List.map_cons, List.mem_cons, ih]
      constructor
      · intro hnm hor
        rcases hor with hc | hm
        · exact hp hc.symm
        · exact hnm hm
      · intro hnm hm
        exact hnm (Or.inr hm)

theorem lookupKey_of_mem_nodup {K V : Type} [DecidableEq K] {k : K} {v : V}
    {l : List (K × V)} (hnd : (l.map Prod.fst).Nodup) (hm : (k, v) ∈ l) :
    lookupKey k l = some v := by
  induction l with
  | nil => cases hm
  | cons p rest ih =>
    simp only [List.map_cons, List.nodup_cons] at hnd
    rcases List.mem_cons.mp hm with he | ht
    · rw [← he]
      simp [lookupKey]
    · have hk : k ∈ rest.map Prod.fst := List.mem_map.mpr ⟨(k, v), ht, rfl⟩
      have hp : ¬ (p.1 = k) := fun hc => hnd.1 (hc ▸ hk)
      simp [lookupKey, hp, ih hnd.2 ht]

theorem LruCache.get_fst {K V : Type} [DecidableEq K] (c : LruCache K V) (k : K) :
    (c.get k).1 = lookupKey k c.entries := by
  cases h : lookupKey k c.entries <;> simp [LruCache.get, h]

theorem LruCache.lookupKey_get {K V : Type} [DecidableEq K] (c : LruCache K V) (k k' : K) :
    lookupKey k' ((c.get k).2).entries = lookupKey k' c.entries := by
  cases h : lookupKey k c.entries with
  | none => simp [LruCache.get, h]
  | some v =>
    simp only [LruCache.get, h]
    by_cases hk : k = k'
    · subst hk
      simp [lookupKey, h]
    · simp [lookupKey, hk, lookupKey_eraseKeyAll_ne _ _ _ (fun hc => hk hc.symm)]

theorem get_nodes_fst (c : NodeCache) (hs : List HashValue) :
    (AccumulatorCache.get_nodes c hs).1 =
      hs.filterMap (fun h => lookupKey h c.entries) := by
  induction hs generalizing c with
  | nil => rfl
  | cons h rest ih =>
    have hcongr : rest.filterMap (fun h' => lookupKey h' ((c.get h).2).entries) =
        rest.filterMap (fun h' => lookupKey h' c.entries) :=
      List.filterMap_congr (fun h' _ => LruCache.lookupKey_get c h h')
    cases hh : lookupKey h c.entries with
    | none =>
      have h1 : (c.get h).1 = none := by rw [LruCache.get_fst, hh]
      simp only [AccumulatorCache.get_nodes, h1, List.filterMap_cons, hh]
      rw [ih, hcongr]
    | some v =>
      have h1 : (c.get h).1 = some v := by rw [LruCache.get_fst, hh]
      simp only [AccumulatorCache.get_nodes, h1, List.filterMap_cons, hh]
      rw [ih, hcongr]

/-! ### C1, C2, C4, C10 -/

/-- C1 (corrected; counterexample): the claim asserts that a content-cache miss
propagates a distinct "not cached" signal and an index-cache miss a distinct
"unknown" signal. On the code, a miss on an empty content cache yields the
placeholder `Empty` node and a miss on an empty index cache yields the zero
hash — precisely the silent placeholder degradation the claim rules out. -/
theorem cache_miss_distinct_signal_cx :
    (AccumulatorCache.get_node (LruCache.empty HashValue AccumulatorNode 10) 5).1 =
      AccumulatorNode.new_empty ∧
    (AccumulatorCache.get_node_hash (LruCache.empty NodeCacheKey HashValue 10) 1 2).1 =
      HashValue.zero := by
  exact ⟨rfl, rfl⟩

/-- C1 (amended): on every content-cache miss, `AccumulatorCache::get_node`
returns the placeholder `Empty` node and leaves the cache unchanged; on every
index-cache miss, `AccumulatorCache::get_node_hash` returns the placeholder
zero hash and leaves the cache unchanged — a miss is silently degraded to a
placeholder value, not propagated as a distinct signal. -/
theorem cache_miss_yields_placeholder (c : NodeCache) (ci : NodeIndexCache)
    (h a : HashValue) (i : NodeIndex)
    (hm : lookupKey h c.entries = none)
    (hmi : lookupKey (NodeCacheKey.new a i) ci.entries = none) :
    AccumulatorCache.get_node c h = (AccumulatorNode.new_empty, c) ∧
    AccumulatorCache.get_node_hash ci a i = (HashValue.zero, ci) := by
  constructor
  · simp [AccumulatorCache.get_node, LruCache.get, hm]
  · simp [AccumulatorCache.get_node_hash, LruCache.get, hmi]

/-- Witness for `cache_miss_yields_placeholder` at concrete empty caches. -/
theorem cache_miss_yields_placeholder_witness :
    AccumulatorCache.get_node (LruCache.empty HashValue AccumulatorNode 3) 7 =
      (AccumulatorNode.new_empty, LruCache.empty HashValue AccumulatorNode 3) ∧
    AccumulatorCache.get_node_hash (LruCache.empty NodeCacheKey HashValue 3) 4 5 =
      (HashValue.zero, LruCache.empty NodeCacheKey HashValue 3) :=
  cache_miss_yields_placeholder _ _ 7 4 5 rfl rfl

/-- C2 (confirmed): `MockAccumulatorStore::get_node` returns the node stored
under the requested content hash whenever one is present (in particular after
`save_node` of that node), fails with an error when the hash is absent, and
never returns a successful `Ok(None)`. -/
theorem mock_get_node_contract (s : MockAccumulatorStore) (n : AccumulatorNode)
    (h : HashValue) :
    MockAccumulatorStore.get_node (MockAccumulatorStore.save_node s n).2 n.hash =
      .ok (some n) ∧
    (∀ m, lookupKey h s.node_store = some m →
      MockAccumulatorStore.get_node s h = .ok (some m)) ∧
    (lookupKey h s.node_store = none →
      MockAccumulatorStore.get_node s h = .error ("get node is null: " ++ toString h)) ∧
    MockAccumulatorStore.get_node s h ≠ .ok none := by
  refine ⟨?_, ?_, ?_, ?_⟩
  · simp [MockAccumulatorStore.get_node, MockAccumulatorStore.save_node, storeInsert,
      lookupKey]
  · intro m hm
    simp [MockAccumulatorStore.get_node, hm]
  · intro hm
    simp [MockAccumulatorStore.get_node, hm]
  · cases hm : lookupKey h s.node_store <;> simp [MockAccumulatorStore.get_node, hm]

/-- Witness for `mock_get_node_contract`: a saved leaf is returned, and a
lookup on the empty store fails with the error (not with `Ok(None)`). -/
theorem mock_get_node_contract_witness :
    MockAccumulatorStore.get_node
        (MockAccumulatorStore.save_node MockAccumulatorStore.new
          (AccumulatorNode.leaf 0 9)).2 (AccumulatorNode.leaf 0 9).hash =
      .ok (some (AccumulatorNode.leaf 0 9)) ∧
    MockAccumulatorStore.get_node MockAccumulatorStore.new 3 =
      .error ("get node is null: " ++ toString (3 : Nat)) :=
  ⟨(mock_get_node_contract MockAccumulatorStore.new (AccumulatorNode.leaf 0 9) 3).1,
   (mock_get_node_contract MockAccumulatorStore.new (AccumulatorNode.leaf 0 9) 3).2.2.1 rfl⟩

/-- C4 (confirmed): `AccumulatorCache::get_nodes` returns exactly the cached
subset of the request: every returned node is the cached node of some requested
hash, every cache hit among the requested hashes contributes its node, and the
result has one entry per cache hit (so absent hashes contribute nothing). -/
theorem get_nodes_exact_cached_subset (c : NodeCache) (hs : List HashValue) :
    (∀ n, n ∈ (AccumulatorCache.get_nodes c hs).1 →
      ∃ h, h ∈ hs ∧ lookupKey h c.entries = some n) ∧
    (∀ h n, h ∈ hs → lookupKey h c.entries = some n →
      n ∈ (AccumulatorCache.get_nodes c hs).1) ∧
    (AccumulatorCache.get_nodes c hs).1.length =
      hs.countP (fun h => (lookupKey h c.entries).isSome) := by
  have hfm := get_nodes_fst c hs
  refine ⟨?_, ?_, ?_⟩
  · intro n hn
    rw [hfm] at hn
    obtain ⟨h, hmem, heq⟩ := List.mem_filterMap.mp hn
    exact ⟨h, hmem, heq⟩
  · intro h n hmem hl
    rw [hfm]
    exact List.mem_filterMap.mpr ⟨h, hmem, hl⟩
  · rw [hfm]
    exact List.length_filterMap_eq_countP _ _

/-- Witness for `get_nodes_exact_cached_subset`: with a single cached leaf
requested alongside an absent hash, the hit is returned and the result has
exactly one entry. -/
theorem get_nodes_exact_cached_subset_witness :
    AccumulatorNode.leaf 0 5 ∈
      (AccumulatorCache.get_nodes
        (⟨[(1, AccumulatorNode.leaf 0 5)], 10⟩ : NodeCache) [2, 1]).1 ∧
    (AccumulatorCache.get_nodes
        (⟨[(1, AccumulatorNode.leaf 0 5)], 10⟩ : NodeCache) [2, 1]).1.length = 1 :=
  ⟨(get_nodes_exact_cached_subset (⟨[(1, AccumulatorNode.leaf 0 5)], 10⟩ : NodeCache)
      [2, 1]).2.1 1 (AccumulatorNode.leaf 0 5) (by decide) rfl,
   ((get_nodes_exact_cached_subset (⟨[(1, AccumulatorNode.leaf 0 5)], 10⟩ : NodeCache)
      [2, 1]).2.2).trans (by decide)⟩

/-- C10 (confirmed): the nodes returned by `AccumulatorCache::get_nodes` are
exactly the hits of the request mapped in request order (`filterMap` of the
lookup over the request list), so the batch lookup is order-preserving over
its hits. -/
theorem get_nodes_order_preserving (c : NodeCache) (hs : List HashValue) :
    (AccumulatorCache.get_nodes c hs).1 =
      hs.filterMap (fun h => lookupKey h c.entries) :=
  get_nodes_fst c hs

/-! ### C5, C6, C7, C8 -/

theorem lookupKey_eraseKeyAll_self {K V : Type} [DecidableEq K] (k : K)
    (l : List (K × V)) : lookupKey k (eraseKeyAll k l) = none := by
  induction l with
  | nil => rfl
  | cons p rest ih =>
    by_cases hp : p.1 = k
    · simp [eraseKeyAll, hp, ih]
    · simp [eraseKeyAll, lookupKey, hp, ih]

theorem eraseKeyAll_idem {K V : Type} [DecidableEq K] (k : K) (l : List (K × V)) :
    eraseKeyAll k (eraseKeyAll k l) = eraseKeyAll k l := by
  induction l with
  | nil => rfl
  | cons p rest ih =>
    by_cases hp : p.1 = k
    · simp [eraseKeyAll, hp, ih]
    · simp [eraseKeyAll, hp, ih]

/-- C5 (confirmed): every cache-layer write (`_save_node`, `save_nodes`,
`save_node_index`, `save_node_indexes`) returns `Ok(())` for every input, and
a put whose key already exists is a benign overwrite: the old value is logged
and the result is still `Ok(())`. -/
theorem cache_saves_always_ok (c : NodeCache) (ci : NodeIndexCache)
    (n : AccumulatorNode) (ns : List AccumulatorNode)
    (a : HashValue) (i : NodeIndex) (h : HashValue) :
    (AccumulatorCache._save_node c n).1 = .ok () ∧
    (AccumulatorCache.save_nodes c ns).1 = .ok () ∧
    (AccumulatorCache.save_node_index ci a i h).1 = .ok () ∧
    (AccumulatorCache.save_node_indexes ci a ns).1 = .ok () ∧
    (∀ old, lookupKey n.hash c.entries = some old →
      AccumulatorCache._save_node c n = (.ok (), [old], (c.put n.hash n).2)) := by
  refine ⟨rfl, ?_, rfl, ?_, ?_⟩
  · cases ns <;> rfl
  · cases ns <;> rfl
  · intro old hold
    simp [AccumulatorCache._save_node, LruCache.put, hold]

/-- Witness for `cache_saves_always_ok`: saving over an existing key succeeds
and logs the overwritten node. -/
theorem cache_saves_always_ok_witness :
    (AccumulatorCache._save_node (⟨[(0, AccumulatorNode.empty)], 5⟩ : NodeCache)
      AccumulatorNode.empty).1 = .ok () ∧
    AccumulatorCache._save_node (⟨[(0, AccumulatorNode.empty)], 5⟩ : NodeCache)
        AccumulatorNode.empty =
      (.ok (), [AccumulatorNode.empty],
        ((⟨[(0, AccumulatorNode.empty)], 5⟩ : NodeCache).put
          AccumulatorNode.empty.hash AccumulatorNode.empty).2) :=
  ⟨(cache_saves_always_ok (⟨[(0, AccumulatorNode.empty)], 5⟩ : NodeCache)
      (LruCache.empty NodeCacheKey HashValue 1) AccumulatorNode.empty [] 0 0 0).1,
   (cache_saves_always_ok (⟨[(0, AccumulatorNode.empty)], 5⟩ : NodeCache)
      (LruCache.empty NodeCacheKey HashValue 1) AccumulatorNode.empty [] 0 0 0).2.2.2.2
     AccumulatorNode.empty rfl⟩

/-- C6 (confirmed): with distinct accumulator identities and a shared index,
two `save_node_index` writes into a fresh index cache of capacity at least 2
leave both hashes independently retrievable, because `NodeCacheKey` equality
accounts for both the accumulator identity and the index. -/
theorem node_index_disambiguation (cap : Nat) (a1 a2 : HashValue) (i : NodeIndex)
    (h1 h2 : HashValue) (hne : a1 ≠ a2) (_hh : h1 ≠ h2) (hcap : 2 ≤ cap) :
    (AccumulatorCache.get_node_hash
      ((AccumulatorCache.save_node_index
        ((AccumulatorCache.save_node_index (LruCache.empty NodeCacheKey HashValue cap)
          a1 i h1).2.2) a2 i h2).2.2) a1 i).1 = h1 ∧
    (AccumulatorCache.get_node_hash
      ((AccumulatorCache.save_node_index
        ((AccumulatorCache.save_node_index (LruCache.empty NodeCacheKey HashValue cap)
          a1 i h1).2.2) a2 i h2).2.2) a2 i).1 = h2 := by
  have hc1 : ¬ (cap < 1) := by omega
  have hc2 : ¬ (cap < 2) := by omega
  have ekey : ¬ (NodeCacheKey.new a1 i = NodeCacheKey.new a2 i) :=
    fun hc => hne (congrArg NodeCacheKey.id hc)
  have ekey' : ¬ (NodeCacheKey.new a2 i = NodeCacheKey.new a1 i) :=
    fun hc => ekey hc.symm
  have e1 : (AccumulatorCache.save_node_index (LruCache.empty NodeCacheKey HashValue cap)
      a1 i h1).2.2 = ⟨[(NodeCacheKey.new a1 i, h1)], cap⟩ := by
    simp [AccumulatorCache.save_node_index, LruCache.put, lookupKey, LruCache.empty, hc1]
  have e2 : (AccumulatorCache.save_node_index
      (⟨[(NodeCacheKey.new a1 i, h1)], cap⟩ : NodeIndexCache) a2 i h2).2.2 =
      ⟨[(NodeCacheKey.new a2 i, h2), (NodeCacheKey.new a1 i, h1)], cap⟩ := by
    simp [AccumulatorCache.save_node_index, LruCache.put, lookupKey, ekey, hc2]
  rw [e1, e2]
  constructor
  · simp [AccumulatorCache.get_node_hash, LruCache.get, lookupKey, ekey']
  · simp [AccumulatorCache.get_node_hash, LruCache.get, lookupKey, ekey]

/-- Witness for `node_index_disambiguation` at identities 0 and 7, index 1,
hashes 10 and 20, capacity 2. -/
theorem node_index_disambiguation_witness :
    (AccumulatorCache.get_node_hash
      ((AccumulatorCache.save_node_index
        ((AccumulatorCache.save_node_index (LruCache.empty NodeCacheKey HashValue 2)
          0 1 10).2.2) 7 1 20).2.2) 0 1).1 = 10 ∧
    (AccumulatorCache.get_node_hash
      ((AccumulatorCache.save_node_index
        ((AccumulatorCache.save_node_index (LruCache.empty NodeCacheKey HashValue 2)
          0 1 10).2.2) 7 1 20).2.2) 7 1).1 = 20 :=
  node_index_disambiguation 2 0 7 1 10 20 (by decide) (by decide) (by decide)

/-- C7 (confirmed): `MockAccumulatorStore::delete_nodes` returns `Ok(())` for
every list of hashes (present or not); afterwards every hash outside the list
is mapped exactly as before and every listed hash is absent. -/
theorem delete_nodes_frame (s : MockAccumulatorStore) (hs : List HashValue) :
    (MockAccumulatorStore.delete_nodes s hs).1 = .ok () ∧
    (∀ h, h ∉ hs →
      lookupKey h (MockAccumulatorStore.delete_nodes s hs).2.node_store =
        lookupKey h s.node_store) ∧
    (∀ h, h ∈ hs →
      lookupKey h (MockAccumulatorStore.delete_nodes s hs).2.node_store = none) := by
  induction hs generalizing s with
  | nil =>
    exact ⟨rfl, fun h _ => rfl, fun h hm => absurd hm (List.not_mem_nil h)⟩
  | cons x rest ih =>
    have step : MockAccumulatorStore.delete_nodes s (x :: rest) =
        MockAccumulatorStore.delete_nodes ⟨eraseKeyAll x s.node_store⟩ rest := rfl
    refine ⟨?_, ?_, ?_⟩
    · rw [step]
      exact (ih _).1
    · intro h hm
      have hx : h ≠ x := fun hc => hm (hc ▸ List.mem_cons_self x rest)
      have hr : h ∉ rest := fun hc => hm (List.mem_cons_of_mem x hc)
      rw [step, (ih _).2.1 h hr]
      exact lookupKey_eraseKeyAll_ne x h _ hx
    · intro h hm
      rw [step]
      rcases List.mem_cons.mp hm with he | hr
      · subst he
        by_cases hr2 : h ∈ rest
        · exact (ih _).2.2 h hr2
        · rw [(ih _).2.1 h hr2]
          exact lookupKey_eraseKeyAll_self h _
      · exact (ih _).2.2 h hr

/-- Witness for `delete_nodes_frame`: deleting a never-written hash succeeds
and leaves the unrelated stored entry unchanged. -/
theorem delete_nodes_frame_witness :
    (MockAccumulatorStore.delete_nodes
      (⟨[(1, AccumulatorNode.empty)]⟩ : MockAccumulatorStore) [2]).1 = .ok () ∧
    lookupKey 1 (MockAccumulatorStore.delete_nodes
        (⟨[(1, AccumulatorNode.empty)]⟩ : MockAccumulatorStore) [2]).2.node_store =
      lookupKey 1 ((⟨[(1, AccumulatorNode.empty)]⟩ : MockAccumulatorStore)).node_store ∧
    lookupKey 2 (MockAccumulatorStore.delete_nodes
        (⟨[(1, AccumulatorNode.empty)]⟩ : MockAccumulatorStore) [2]).2.node_store = none :=
  ⟨(delete_nodes_frame (⟨[(1, AccumulatorNode.empty)]⟩ : MockAccumulatorStore) [2]).1,
   (delete_nodes_frame (⟨[(1, AccumulatorNode.empty)]⟩ : MockAccumulatorStore) [2]).2.1
     1 (by decide),
   (delete_nodes_frame (⟨[(1, AccumulatorNode.empty)]⟩ : MockAccumulatorStore) [2]).2.2
     2 (by decide)⟩

/-- C8 (confirmed): re-saving an identical node is a no-op in effect: saving a
node twice through `MockAccumulatorStore::save_node` (or re-saving it through
`save_nodes`) leaves the store in the same state as saving it once. -/
theorem save_node_idempotent (s : MockAccumulatorStore) (n : AccumulatorNode) :
    (MockAccumulatorStore.save_node (MockAccumulatorStore.save_node s n).2 n).2 =
      (MockAccumulatorStore.save_node s n).2 ∧
    (MockAccumulatorStore.save_nodes (MockAccumulatorStore.save_node s n).2 [n]).2 =
      (MockAccumulatorStore.save_node s n).2 := by
  have key : storeInsert n.hash n (storeInsert n.hash n s.node_store) =
      storeInsert n.hash n s.node_store := by
    simp [storeInsert, eraseKeyAll, eraseKeyAll_idem]
  constructor
  · simp [MockAccumulatorStore.save_node, key]
  · simp [MockAccumulatorStore.save_node, MockAccumulatorStore.save_nodes, key]

/-! ### C3 -/

/-- C3 (corrected; counterexample): the claim asserts that `multiple_get`
returns a node for every requested hash, failing only as a whole when a
requested hash is absent. Its body is `unimplemented!()`: even for the empty
request (every requested hash trivially present) it panics instead of
returning the empty success list. -/
theorem multiple_get_cx :
    MockAccumulatorStore.multiple_get MockAccumulatorStore.new [] =
      RustOutcome.unimplemented ∧
    MockAccumulatorStore.multiple_get MockAccumulatorStore.new [] ≠
      RustOutcome.ok [] := by
  exact ⟨rfl, by decide⟩

/-- C3 (amended): `MockAccumulatorStore::multiple_get` is unimplemented and
panics on every input and store state; in particular it never returns a list —
partial or complete — as a success. -/
theorem multiple_get_unimplemented (s : MockAccumulatorStore)
    (hs : List HashValue) (l : List AccumulatorNode) :
    MockAccumulatorStore.multiple_get s hs = RustOutcome.unimplemented ∧
    MockAccumulatorStore.multiple_get s hs ≠ RustOutcome.ok l :=
  ⟨rfl, by simp [MockAccumulatorStore.multiple_get]⟩

/-! ### C9: LRU eviction -/

/-- Sequential `put` of a list of key-value pairs (the loop bodies of the
batched cache writes, restricted to their cache-state effect). -/
def putList {K V : Type} [DecidableEq K] (c : LruCache K V) :
    List (K × V) → LruCache K V
  | [] => c
  | kv :: rest => putList (c.put kv.1 kv.2).2 rest

theorem lookupKey_take_none {K V : Type} [DecidableEq K] (k : K)
    (l : List (K × V)) (m : Nat) (h : lookupKey k l = none) :
    lookupKey k (l.take m) = none := by
  rw [lookupKey_eq_none_iff] at h ⊢
  intro hc
  rw [List.map_take] at hc
  exact h (List.mem_of_mem_take hc)

theorem take_append_take {α : Type} (n : Nat) (a b : List α) :
    (a ++ b.take n).take n = (a ++ b).take n := by
  rw [List.take_append_eq_append_take, List.take_append_eq_append_take,
    List.take_take, Nat.min_eq_left (Nat.sub_le n a.length)]

theorem putList_fresh {K V : Type} [DecidableEq K] (ps : List (K × V)) :
    ∀ (c : LruCache K V), (ps.map Prod.fst).Nodup →
    (∀ k, k ∈ ps.map Prod.fst → lookupKey k c.entries = none) →
    c.entries.length ≤ c.cap →
    (putList c ps).entries = (ps.reverse ++ c.entries).take c.cap ∧
    (putList c ps).cap = c.cap := by
  induction ps with
  | nil =>
    intro c _ _ hlen
    exact ⟨(List.take_of_length_le hlen).symm, rfl⟩
  | cons kv rest ih =>
    intro c hnd hfresh hlen
    have hk : lookupKey kv.1 c.entries = none := hfresh kv.1 (by simp)
    have hc1e : ((c.put kv.1 kv.2).2).entries =
        ((kv.1, kv.2) :: c.entries).take c.cap := by
      by_cases hover : c.cap < ((kv.1, kv.2) :: c.entries).length
      · simp only [LruCache.put, hk]
        rw [if_pos hover, List.dropLast_eq_take]
        congr 1
        simp only [List.length_cons] at hover ⊢
        omega
      · simp only [LruCache.put, hk]
        rw [if_neg hover]
        exact (List.take_of_length_le (by omega)).symm
    have hc1cap : ((c.put kv.1 kv.2).2).cap = c.cap := by
      simp only [LruCache.put, hk]
    have hnd1 : (rest.map Prod.fst).Nodup := by
      simp only [List.map_cons, List.nodup_cons] at hnd
      exact hnd.2
    have hfresh1 : ∀ k, k ∈ rest.map Prod.fst →
        lookupKey k ((c.put kv.1 kv.2).2).entries = none := by
      intro k hkm
      have hkk : ¬ (kv.1 = k) := by
        simp only [List.map_cons, List.nodup_cons] at hnd
        exact fun hc => hnd.1 (hc ▸ hkm)
      have hfull : lookupKey k ((kv.1, kv.2) :: c.entries) = none := by
        simp [lookupKey, hkk, hfresh k (by simp [hkm])]
      rw [hc1e]
      exact lookupKey_take_none k _ c.cap hfull
    have hlen1 : ((c.put kv.1 kv.2).2).entries.length ≤ ((c.put kv.1 kv.2).2).cap := by
      rw [hc1e, hc1cap]
      exact List.length_take_le _ _
    obtain ⟨ih1, ih2⟩ := ih (c.put kv.1 kv.2).2 hnd1 hfresh1 hlen1
    constructor
    · show (putList (c.put kv.1 kv.2).2 rest).entries = _
      rw [ih1, hc1e, hc1cap, take_append_take]
      congr 1
      simp [List.append_assoc]
    · show (putList (c.put kv.1 kv.2).2 rest).cap = _
      rw [ih2, hc1cap]

theorem putList_evicts {K V : Type} [DecidableEq K] (cap : Nat) (p0 : K × V)
    (prest : List (K × V)) (hlen : prest.length = cap)
    (hnd : ((p0 :: prest).map Prod.fst).Nodup) :
    (putList (LruCache.empty K V cap) (p0 :: prest)).entries = prest.reverse := by
  obtain ⟨he, _⟩ := putList_fresh (p0 :: prest) (LruCache.empty K V cap) hnd
    (fun _ _ => rfl) (by simp [LruCache.empty])
  rw [he]
  show ((p0 :: prest).reverse ++ ([] : List (K × V))).take cap = _
  rw [List.append_nil, List.reverse_cons]
  exact List.take_left' (by simp [hlen])

theorem save_nodes_state (c : NodeCache) (ns : List AccumulatorNode) :
    (AccumulatorCache.save_nodes c ns).2.2 =
      putList c (ns.map fun n => (n.hash, n)) := by
  induction ns generalizing c with
  | nil => rfl
  | cons n rest ih =>
    show (AccumulatorCache.save_nodes (c.put n.hash n).2 rest).2.2 = _
    rw [ih]
    rfl

theorem save_node_indexes_state (c : NodeIndexCache) (a : HashValue)
    (ns : List AccumulatorNode) :
    (AccumulatorCache.save_node_indexes c a ns).2.2 =
      putList c (ns.map fun n => (NodeCacheKey.new a n.index, n.hash)) := by
  induction ns generalizing c with
  | nil => rfl
  | cons n rest ih =>
    show (AccumulatorCache.save_node_indexes
      (c.put (NodeCacheKey.new a n.index) n.hash).2 a rest).2.2 = _
    rw [ih]
    rfl

/-- C9 (confirmed): starting from a fresh cache of capacity `cap`, writing
`cap + 1` nodes with pairwise-distinct keys (content hashes for the node
cache via `save_nodes`; `(accumulator_id, index)` keys for the index cache via
`save_node_indexes`, with pairwise-distinct indexes) evicts exactly the first
(least recently used) key: its lookup is a soft miss (`none`) while each of
the other `cap` keys is still a hit with its cached value. -/
theorem lru_eviction (cap : Nat) (n0 : AccumulatorNode) (rest : List AccumulatorNode)
    (a : HashValue) (hlen : rest.length = cap)
    (hnd : ((n0 :: rest).map AccumulatorNode.hash).Nodup)
    (hndi : ((n0 :: rest).map AccumulatorNode.index).Nodup) :
    (((AccumulatorCache.save_nodes (LruCache.empty HashValue AccumulatorNode cap)
        (n0 :: rest)).2.2).get n0.hash).1 = none ∧
    (∀ n, n ∈ rest →
      (((AccumulatorCache.save_nodes (LruCache.empty HashValue AccumulatorNode cap)
          (n0 :: rest)).2.2).get n.hash).1 = some n) ∧
    (((AccumulatorCache.save_node_indexes (LruCache.empty NodeCacheKey HashValue cap)
        a (n0 :: rest)).2.2).get (NodeCacheKey.new a n0.index)).1 = none ∧
    (∀ n, n ∈ rest →
      (((AccumulatorCache.save_node_indexes (LruCache.empty NodeCacheKey HashValue cap)
          a (n0 :: rest)).2.2).get (NodeCacheKey.new a n.index)).1 = some n.hash) := by
  have hmapN : ((n0 :: rest).map (fun n => (n.hash, n))).map Prod.fst =
      (n0 :: rest).map AccumulatorNode.hash := by
    rw [List.map_map]
    rfl
  have hndN : (((n0.hash, n0) :: rest.map fun n => (n.hash, n)).map Prod.fst).Nodup := by
    have hrw : ((n0.hash, n0) :: rest.map fun n => (n.hash, n)) =
        (n0 :: rest).map (fun n => (n.hash, n)) := rfl
    rw [hrw, hmapN]
    exact hnd
  have hlenN : (rest.map fun n => (n.hash, n)).length = cap := by simp [hlen]
  have heN : (AccumulatorCache.save_nodes (LruCache.empty HashValue AccumulatorNode cap)
      (n0 :: rest)).2.2.entries = (rest.map fun n => (n.hash, n)).reverse := by
    rw [save_nodes_state]
    exact putList_evicts cap (n0.hash, n0) (rest.map fun n => (n.hash, n)) hlenN hndN
  have hsplitN : (rest.map AccumulatorNode.hash).Nodup ∧
      n0.hash ∉ rest.map AccumulatorNode.hash := by
    simp only [List.map_cons, List.nodup_cons] at hnd
    exact ⟨hnd.2, hnd.1⟩
  have hkeysN : ((rest.map fun n => (n.hash, n)).reverse.map Prod.fst) =
      (rest.map AccumulatorNode.hash).reverse := by
    rw [List.map_reverse, List.map_map]
    rfl
  have hmissN : lookupKey n0.hash ((rest.map fun n => (n.hash, n)).reverse) = none := by
    rw [lookupKey_eq_none_iff, hkeysN, List.mem_reverse]
    exact hsplitN.2
  have hhitN : ∀ n, n ∈ rest →
      lookupKey n.hash ((rest.map fun n => (n.hash, n)).reverse) = some n := by
    intro n hn
    apply lookupKey_of_mem_nodup
    · rw [hkeysN]
      exact List.nodup_reverse.mpr hsplitN.1
    · rw [List.mem_reverse]
      exact List.mem_map_of_mem _ hn
  have hinj : Function.Injective (NodeCacheKey.new a) :=
    fun x y hxy => congrArg NodeCacheKey.index hxy
  have hmapI : ((n0 :: rest).map (fun n => (NodeCacheKey.new a n.index, n.hash))).map
      Prod.fst = ((n0 :: rest).map AccumulatorNode.index).map (NodeCacheKey.new a) := by
    rw [List.map_map, List.map_map]
    rfl
  have hndI : (((NodeCacheKey.new a n0.index, n0.hash) ::
      rest.map fun n => (NodeCacheKey.new a n.index, n.hash)).map Prod.fst).Nodup := by
    have hrw : ((NodeCacheKey.new a n0.index, n0.hash) ::
        rest.map fun n => (NodeCacheKey.new a n.index, n.hash)) =
        (n0 :: rest).map (fun n => (NodeCacheKey.new a n.index, n.hash)) := rfl
    rw [hrw, hmapI]
    exact hndi.map hinj
  have hlenI : (rest.map fun n => (NodeCacheKey.new a n.index, n.hash)).length = cap := by
    simp [hlen]
  have heI : (AccumulatorCache.save_node_indexes
      (LruCache.empty NodeCacheKey HashValue cap) a (n0 :: rest)).2.2.entries =
      (rest.map fun n => (NodeCacheKey.new a n.index, n.hash)).reverse := by
    rw [save_node_indexes_state]
    exact putList_evicts cap (NodeCacheKey.new a n0.index, n0.hash)
      (rest.map fun n => (NodeCacheKey.new a n.index, n.hash)) hlenI hndI
  have hsplitI : ((rest.map AccumulatorNode.index).map (NodeCacheKey.new a)).Nodup ∧
      NodeCacheKey.new a n0.index ∉
        (rest.map AccumulatorNode.index).map (NodeCacheKey.new a) := by
    have := hndi.map hinj
    rw [List.map_cons, List.map_cons, List.nodup_cons] at this
    exact ⟨this.2, this.1⟩
  have hkeysI : ((rest.map fun n => (NodeCacheKey.new a n.index, n.hash)).reverse.map
      Prod.fst) = ((rest.map AccumulatorNode.index).map (NodeCacheKey.new a)).reverse := by
    rw [List.map_reverse, List.map_map, List.map_map]
    rfl
  have hmissI : lookupKey (NodeCacheKey.new a n0.index)
      ((rest.map fun n => (NodeCacheKey.new a n.index, n.hash)).reverse) = none := by
    rw [lookupKey_eq_none_iff, hkeysI, List.mem_reverse]
    exact hsplitI.2
  have hhitI : ∀ n, n ∈ rest → lookupKey (NodeCacheKey.new a n.index)
      ((rest.map fun n => (NodeCacheKey.new a n.index, n.hash)).reverse) = some n.hash := by
    intro n hn
    apply lookupKey_of_mem_nodup
    · rw [hkeysI]
      exact List.nodup_reverse.mpr hsplitI.1
    · rw [List.mem_reverse]
      exact List.mem_map_of_mem _ hn
  refine ⟨?_, ?_, ?_, ?_⟩
  · rw [LruCache.get_fst, heN]
    exact hmissN
  · intro n hn
    rw [LruCache.get_fst, heN]
    exact hhitN n hn
  · rw [LruCache.get_fst, heI]
    exact hmissI
  · intro n hn
    rw [LruCache.get_fst, heI]
    exact hhitI n hn

/-- Witness for `lru_eviction`: capacity 1, two leaves with distinct hashes
and indexes; the first leaf is evicted from both caches, the second remains
a hit. -/
theorem lru_eviction_witness :
    (((AccumulatorCache.save_nodes (LruCache.empty HashValue AccumulatorNode 1)
        [AccumulatorNode.leaf 0 0, AccumulatorNode.leaf 1 0]).2.2).get
      (AccumulatorNode.leaf 0 0).hash).1 = none ∧
    (((AccumulatorCache.save_nodes (LruCache.empty HashValue AccumulatorNode 1)
        [AccumulatorNode.leaf 0 0, AccumulatorNode.leaf 1 0]).2.2).get
      (AccumulatorNode.leaf 1 0).hash).1 = some (AccumulatorNode.leaf 1 0) ∧
    (((AccumulatorCache.save_node_indexes (LruCache.empty NodeCacheKey HashValue 1)
        9 [AccumulatorNode.leaf 0 0, AccumulatorNode.leaf 1 0]).2.2).get
      (NodeCacheKey.new 9 (AccumulatorNode.leaf 0 0).index)).1 = none ∧
    (((AccumulatorCache.save_node_indexes (LruCache.empty NodeCacheKey HashValue 1)
        9 [AccumulatorNode.leaf 0 0, AccumulatorNode.leaf 1 0]).2.2).get
      (NodeCacheKey.new 9 (AccumulatorNode.leaf 1 0).index)).1 =
      some (AccumulatorNode.leaf 1 0).hash := by
  obtain ⟨h1, h2, h3, h4⟩ := lru_eviction 1 (AccumulatorNode.leaf 0 0)
    [AccumulatorNode.leaf 1 0] 9 (by decide) (by decide) (by decide)
  exact ⟨h1, h2 _ (by decide), h3, h4 _ (by decide)⟩
